import Mathlib

/-!
Verification of the language-file merge task (`gulp/task-build-lang.js`).

The JavaScript source is shallowly embedded: JS objects (string-keyed,
insertion-ordered, value overwritten in place on re-assignment) are
modelled as association lists with in-place update, JS strings as Lean
`String` (positions counted in characters; the paths and keys this task
handles are plain text, where character positions and UTF-16 positions
coincide), and the default `Array.prototype.sort` comparator as
lexicographic comparison of UTF-16 code-unit sequences.
-/

namespace BuildLang

/-- JS object property read `o[k]`: the entry with key `k` (keys of an
object are unique, so the first match is the entry). -/
def jsObjGet {α : Type} : List (String × α) → String → Option α
  | [], _ => none
  | (k1, v) :: t, k => if k1 = k then some v else jsObjGet t k

/-- JS object property assignment `o[k] = v`: updates the value in place
when the key exists (keeping its position in insertion order), appends a
new entry otherwise. -/
def jsObjSet {α : Type} : List (String × α) → String → α → List (String × α)
  | [], k, v => [(k, v)]
  | (k1, v1) :: t, k, v => if k1 = k then (k1, v) :: t else (k1, v1) :: jsObjSet t k v

/-- The keys of an object, in entry order. -/
def keysOf {α : Type} (m : List (String × α)) : List String := m.map (fun e => e.1)

/-- Value of a decimal numeral given most-significant-first digits. -/
def natOfDigits (l : List Char) : Nat := l.foldl (fun n c => n * 10 + (c.toNat - 48)) 0

/-- Whether a string is a canonical JS array-index key (`"0"`, `"1"`,
..., value below `2^32 - 1`).  `for...in` enumerates such keys first, in
ascending numeric order, before the remaining keys in insertion order. -/
def isArrayIndexKey (s : String) : Bool :=
  match s.data with
  | [] => false
  | c :: t =>
    (c :: t).all Char.isDigit && (c != '0' || t.isEmpty) &&
      decide (natOfDigits (c :: t) < 4294967295)

/-- The numeric order on array-index keys. -/
def IdxLe (a b : String) : Prop := natOfDigits a.data ≤ natOfDigits b.data

instance : DecidableRel IdxLe := fun a b => Nat.decLe _ _

instance : IsTotal String IdxLe := ⟨fun a b => Nat.le_total _ _⟩

instance : IsTrans String IdxLe := ⟨fun _ _ _ h1 h2 => Nat.le_trans h1 h2⟩

/-- The order in which `for...in` and `Object.keys` enumerate an
object's own keys: array-index keys first in ascending numeric order,
then the remaining keys in insertion order. -/
def jsForInKeys {α : Type} (m : List (String × α)) : List String :=
  let ks := keysOf m
  (ks.filter (fun k => isArrayIndexKey k)).insertionSort IdxLe ++
    ks.filter (fun k => !isArrayIndexKey k)

/-- The path separators of the regex `[\/\\]` used by `split`. -/
def isSep (c : Char) : Bool := c == '/' || c == '\\'

/-- `String.prototype.split(/[\/\\]/)` on the character list: the fields
between separators, empty fields preserved, always at least one field. -/
def splitSepsChars : List Char → List (List Char)
  | [] => [[]]
  | c :: t =>
    if isSep c then [] :: splitSepsChars t
    else
      match splitSepsChars t with
      | [] => [[c]]
      | f :: r => (c :: f) :: r

/-- `filepath.split(/[\/\\]/)` as a list of strings. -/
def splitSegs (s : String) : List String := (splitSepsChars s.data).map (fun l => String.mk l)

/-- JS array indexing `a[i]` used in string position: an out-of-range
read gives `undefined`, which behaves as the string `"undefined"` under
concatenation (and compares unequal to every path-segment literal the
dispatch tests against). -/
def jsIndex (l : List String) (i : Nat) : String := (l.get? i).getD "undefined"

/-- Index of the last occurrence of `pat` in `l`, if any. -/
def lastOcc (l pat : List Char) : Option Nat :=
  ((List.range (l.length + 1)).filter (fun i => pat.isPrefixOf (l.drop i))).getLast?

/-- `String.prototype.lastIndexOf`: index of the last occurrence of the
search string, `-1` when it does not occur. -/
def jsLastIndexOf (s pat : String) : Int :=
  match lastOcc s.data pat.data with
  | some i => (i : Int)
  | none => -1

/-- `String.prototype.substr(start)` (single-argument form): the suffix
starting at `start`, counted from the end when `start` is negative. -/
def jsSubstrFrom (s : String) (start : Int) : String :=
  let st : Int := if start < 0 then max ((s.data.length : Int) + start) 0 else start
  String.mk (s.data.drop st.toNat)

/-- `String.prototype.slice(-1)`: the last character as a one-character
string, or `""` on the empty string. -/
def jsSliceLast (s : String) : String :=
  match s.data.getLast? with
  | some c => String.mk [c]
  | none => ""

/-- A parsed translation fragment: the flat key-to-value object decoded
from one language file. -/
abbrev Frag := List (String × String)

/-- What `JSON.parse` does to a file's contents: either a flat JSON
object, or a parse failure carrying the error's string form. -/
inductive Contents : Type
  | json (frag : Frag)
  | malformed (err : String)

/-- A file as seen by `treatFile`: its (slash-normalised) path and
contents, plus the `isNull`/`isStream` flags that are checked first. -/
structure VFile : Type where
  path : String
  isNull : Bool
  isStream : Bool
  contents : Contents

/-- The accumulating `data` object: parsed fragments keyed by the
relative path computed in `treatFile`. -/
abbrev Data := List (String × Frag)

/-- The relative-path computation of `treatFile` (source lines 105-112):
everything after the last `/src/` (or, failing that, `\src\`) marker,
obtained as `substr(srcPos + 5)` where `srcPos` is `-1` when neither
marker occurs. -/
def relPath (p : String) : String :=
  let srcPos : Int := jsLastIndexOf p "/src/"
  let srcPos2 : Int := if srcPos = -1 then jsLastIndexOf p "\\src\\" else srcPos
  jsSubstrFrom p (srcPos2 + 5)

/-- `treatFile` (source lines 100-117): ignore null/stream files;
otherwise store the parsed contents in `data` under the relative path,
or log `Error parsing JSON: <err>` on parse failure, leaving `data`
untouched.  Returns the updated `data` and the logged line, if any. -/
def treatFile (file : VFile) (data : Data) : Data × Option String :=
  if file.isNull || file.isStream then (data, none)
  else
    match file.contents with
    | Contents.json frag => (jsObjSet data (relPath file.path) frag, none)
    | Contents.malformed err => (data, some ("Error parsing JSON: " ++ err))

/-- The `data` object after the stream has pushed the given files
through `treatFile`, in order. -/
def ingestData (files : List VFile) : Data :=
  files.foldl (fun d f => (treatFile f d).1) []

/-- The `switch` of `treatMergedData` (source lines 135-160), applied to
the already split, filename-stripped segment list: the namespace to use,
or `none` when no case matches (the `prefix` variable stays `undefined`
and the fragment is skipped). -/
def prefixFromSegs (pathSplit : List String) : Option String :=
  match pathSplit.head? with
  | some "lang" => some "core"
  | some "core" =>
    if jsIndex pathSplit 1 = "lang" then some "core"
    else some ("core." ++ jsIndex pathSplit 1)
  | some "addon" => some ("addon." ++ "_".intercalate ((pathSplit.dropLast).drop 1))
  | some "assets" => some ("assets." ++ jsIndex pathSplit 1)
  | _ => none

/-- Namespace derivation for one `data` key: split on `/` or `\`,
`pop()` the filename segment, then dispatch on the first remaining
segment. -/
def prefixFor (filepath : String) : Option String :=
  prefixFromSegs ((splitSegs filepath).dropLast)

/-- `addProperties` (source lines 35-39): copy every property of
`source` into `target` under the key `prefixArg + property`. -/
def addProperties (target : List (String × String)) (source : Frag) (prefixArg : String) :
    List (String × String) :=
  source.foldl (fun tgt kv => jsObjSet tgt (prefixArg ++ kv.1) kv.2) target

/-- The first loop of `treatMergedData` (source lines 129-165): fold the
fragments, in `for...in` order over `data`, into the `merged` object,
prefixing each key with `prefix + "."` and skipping fragments whose path
matches no dispatch case. -/
def mergeData (data : Data) : List (String × String) :=
  (jsForInKeys data).foldl
    (fun merged fp =>
      match jsObjGet data fp with
      | some frag =>
        match prefixFor fp with
        | some pre => addProperties merged frag (pre ++ ".")
        | none => merged
      | none => merged)
    []

/-- UTF-16 code units of one character (a surrogate pair for the
supplementary planes). -/
def utf16Char (c : Char) : List Nat :=
  if c.toNat < 65536 then [c.toNat]
  else [55296 + (c.toNat - 65536) / 1024, 56320 + (c.toNat - 65536) % 1024]

/-- The UTF-16 code-unit sequence of a string. -/
def utf16Units (s : String) : List Nat := (s.data.map utf16Char).flatten

/-- Lexicographic comparison of code-unit sequences: the order the
default `Array.prototype.sort` comparator establishes on strings. -/
def unitsLE : List Nat → List Nat → Bool
  | [], _ => true
  | _ :: _, [] => false
  | a :: as, b :: bs => if a < b then true else if b < a then false else unitsLE as bs

/-- Strict lexicographic comparison of code-unit sequences. -/
def unitsLT : List Nat → List Nat → Bool
  | [], [] => false
  | [], _ :: _ => true
  | _ :: _, [] => false
  | a :: as, b :: bs => if a < b then true else if b < a then false else unitsLT as bs

/-- `a` sorts no later than `b` under the default JS sort comparator. -/
def Utf16Le (a b : String) : Prop := unitsLE (utf16Units a) (utf16Units b) = true

/-- `a` sorts strictly before `b` under the default JS sort comparator
(UTF-16 code-unit lexicographic order). -/
def Utf16Lt (a b : String) : Prop := unitsLT (utf16Units a) (utf16Units b) = true

instance : DecidableRel Utf16Le := fun _ _ => instDecidableEqBool _ _

instance : DecidableRel Utf16Lt := fun _ _ => instDecidableEqBool _ _

theorem unitsLE_cons_iff {x y : Nat} {xs ys : List Nat} :
    unitsLE (x :: xs) (y :: ys) = true ↔ x < y ∨ (x = y ∧ unitsLE xs ys = true) := by
  simp only [unitsLE]
  by_cases h1 : x < y
  · simp [h1]
  · by_cases h2 : y < x
    · simp [h1, h2]; omega
    · have h3 : x = y := by omega
      simp [h1, h2, h3]

theorem unitsLT_cons_iff {x y : Nat} {xs ys : List Nat} :
    unitsLT (x :: xs) (y :: ys) = true ↔ x < y ∨ (x = y ∧ unitsLT xs ys = true) := by
  simp only [unitsLT]
  by_cases h1 : x < y
  · simp [h1]
  · by_cases h2 : y < x
    · simp [h1, h2]; omega
    · have h3 : x = y := by omega
      simp [h1, h2, h3]

theorem unitsLE_total : ∀ a b : List Nat, unitsLE a b = true ∨ unitsLE b a = true := by
  intro a
  induction a with
  | nil => intro b; left; rfl
  | cons x xs ih =>
    intro b
    cases b with
    | nil => right; rfl
    | cons y ys =>
      rw [unitsLE_cons_iff, unitsLE_cons_iff]
      rcases Nat.lt_trichotomy x y with h | h | h
      · left; left; exact h
      · rcases ih ys with h2 | h2
        · left; right; exact ⟨h, h2⟩
        · right; right; exact ⟨h.symm, h2⟩
      · right; left; exact h

theorem unitsLE_trans : ∀ a b c : List Nat,
    unitsLE a b = true → unitsLE b c = true → unitsLE a c = true := by
  intro a
  induction a with
  | nil => intro b c _ _; rfl
  | cons x xs ih =>
    intro b c hab hbc
    cases b with
    | nil => simp [unitsLE] at hab
    | cons y ys =>
      cases c with
      | nil => simp [unitsLE] at hbc
      | cons z zs =>
        rw [unitsLE_cons_iff] at hab hbc ⊢
        rcases hab with h1 | ⟨h1, h1r⟩
        · rcases hbc with h2 | ⟨h2, _⟩
          · left; omega
          · left; omega
        · rcases hbc with h2 | ⟨h2, h2r⟩
          · left; omega
          · right; exact ⟨by omega, ih _ _ h1r h2r⟩

instance : IsTotal String Utf16Le := ⟨fun a b => unitsLE_total _ _⟩

instance : IsTrans String Utf16Le := ⟨fun _ _ _ h1 h2 => unitsLE_trans _ _ _ h1 h2⟩

/-- `Array.prototype.sort()` with the default comparator on an array of
strings: sorts by UTF-16 code-unit lexicographic order. -/
def jsSortStrings (l : List String) : List String := l.insertionSort Utf16Le

/-- The hexadecimal digit `JSON.stringify` uses in `\u00XX` escapes. -/
def hexDigit (n : Nat) : String :=
  if n < 10 then String.mk [Char.ofNat (48 + n)] else String.mk [Char.ofNat (87 + n)]

/-- `JSON.stringify` escaping of one character of a string literal. -/
def escChar (c : Char) : String :=
  if c = '"' then "\\\""
  else if c = '\\' then "\\\\"
  else if c = Char.ofNat 8 then "\\b"
  else if c = Char.ofNat 9 then "\\t"
  else if c = Char.ofNat 10 then "\\n"
  else if c = Char.ofNat 12 then "\\f"
  else if c = Char.ofNat 13 then "\\r"
  else if c.toNat < 32 then "\\u00" ++ hexDigit (c.toNat / 16) ++ hexDigit (c.toNat % 16)
  else String.mk [c]

/-- The JSON string literal denoting `s`. -/
def jsonQuote (s : String) : String := "\"" ++ String.join (s.data.map escChar) ++ "\""

/-- Joining a list of already rendered lines with the separator `,\n`
(the way the serialiser separates the properties of an object). -/
def joinComma : List String → String
  | [] => ""
  | [x] => x
  | x :: y :: rest => x ++ ",\n" ++ joinComma (y :: rest)

/-- `JSON.stringify(obj, null, 4)` for a flat string-valued object:
`{}` when the object is empty, otherwise one 4-space-indented
`"key": "value"` line per property (in `for...in` order), joined by
`,\n`, between `{` and `}` lines.  No trailing newline is produced. -/
def jsonStringify4 (obj : List (String × String)) : String :=
  match (jsForInKeys obj).filterMap (fun k => (jsObjGet obj k).map (fun v => (k, v))) with
  | [] => "\x7b\x7d"
  | e :: rest =>
    "\x7b\n" ++
      joinComma ((e :: rest).map (fun kv => "    " ++ jsonQuote kv.1 ++ ": " ++ jsonQuote kv.2)) ++
      "\n\x7d"

/-- The reordering loop of `treatMergedData` (source lines 167-170):
`Object.keys(merged).sort()`, re-inserted one key at a time into a fresh
object. -/
def orderData (data : Data) : List (String × String) :=
  let merged := mergeData data
  (jsSortStrings (jsForInKeys merged)).foldl
    (fun mo k =>
      match jsObjGet merged k with
      | some v => jsObjSet mo k v
      | none => mo)
    []

/-- `treatMergedData` (source lines 125-173): merge, sort, serialise.
The returned string is the text that `bufferFrom` encodes (as UTF-8)
into the joined file's contents. -/
def treatMergedData (data : Data) : String := jsonStringify4 (orderData data)

/-- The candidate-path computation of `run` (source lines 54-60): append
a trailing `/` to each configured directory unless its last character
already is `/`, then append `<language>.json`. -/
def resolvePaths (language : String) (langPaths : List String) : List String :=
  langPaths.map (fun path =>
    (if jsSliceLast path ≠ "/" then path ++ "/" else path) ++ language ++ ".json")

/-! ### Specification-side definitions

These follow the wording of the specification (not the source); the
theorems below compare them with the translated source functions. -/

/-- Whether `pat` occurs as a contiguous substring of `l`. -/
def containsSub (l pat : List Char) : Bool :=
  (List.range (l.length + 1)).any (fun i => pat.isPrefixOf (l.drop i))

/-- The last character of a string, if any. -/
def lastChar (s : String) : Option Char := s.data.getLast?

/-- Whether a string's final character is `/`. -/
def endsWithSlash (s : String) : Bool := s.data.getLast? == some '/'

/-- Modelled from the claim: the namespace dispatch exactly as C1 words
it, the trailing segment of an `addon` path being dropped only when it
is `lang`. -/
def claimDispatchC1 (filepath : String) : Option String :=
  let comps := (splitSegs filepath).dropLast
  match comps.head? with
  | some "lang" => some "core"
  | some "core" =>
    if jsIndex comps 1 = "lang" then some "core" else some ("core." ++ jsIndex comps 1)
  | some "addon" =>
    let comps2 := if comps.getLast? = some "lang" then comps.dropLast else comps
    some ("addon." ++ "_".intercalate (comps2.drop 1))
  | some "assets" => some ("assets." ++ jsIndex comps 1)
  | _ => none

/-- The C1 dispatch amended to match the source, on the
filename-stripped segments: for root `addon` the remaining segments are
`addon` and the final segment dropped unconditionally (whatever the
final one is), joined with `_`. -/
def claimDispatchSegsAmended (comps : List String) : Option String :=
  match comps.head? with
  | some "lang" => some "core"
  | some "core" =>
    if jsIndex comps 1 = "lang" then some "core" else some ("core." ++ jsIndex comps 1)
  | some "addon" => some ("addon." ++ "_".intercalate ((comps.drop 1).dropLast))
  | some "assets" => some ("assets." ++ jsIndex comps 1)
  | _ => none

/-- The C1 dispatch amended to match the source, on a relative path. -/
def claimDispatchAmended (filepath : String) : Option String :=
  claimDispatchSegsAmended ((splitSegs filepath).dropLast)

/-- The fragment a file contributes to the merge: `none` for files the
stream skips (null/stream) or whose contents fail to parse. -/
def parsedFragOf (f : VFile) : Option Frag :=
  if f.isNull || f.isStream then none
  else
    match f.contents with
    | Contents.json frag => some frag
    | Contents.malformed _ => none

/-- Modelled from the claim (C2): the union, over all successfully
parsed fragments, of their prefixed key sets; fragments whose root
segment matches no dispatch case contribute nothing. -/
def specKeyUnion (files : List VFile) : List String :=
  files.flatMap (fun f =>
    match parsedFragOf f, prefixFor (relPath f.path) with
    | some frag, some pre => frag.map (fun kv => pre ++ "." ++ kv.1)
    | _, _ => [])

/-- Modelled from the claim (C2): the value the fully-qualified key `q`
should receive under last-ingested-wins over the supplied file order. -/
def specLastValue (files : List VFile) (q : String) : Option String :=
  files.foldl (fun acc f =>
    match parsedFragOf f, prefixFor (relPath f.path) with
    | some frag, some pre =>
      match (frag.filter (fun kv => pre ++ "." ++ kv.1 == q)).getLast? with
      | some kv => some kv.2
      | none => acc
    | _, _ => acc) none

/-- Modelled from the claim (C9): normalise a directory so that it ends
with exactly one path separator. -/
def specNormalizeDir (dir : String) : String :=
  String.mk (dir.data.reverse.dropWhile (fun c => isSep c)).reverse ++ "/"

/-- Modelled from the claim (C9): one candidate path per base directory,
built from the normalised directory. -/
def specResolve (language : String) (baseDirs : List String) : List String :=
  baseDirs.map (fun dir => specNormalizeDir dir ++ language ++ ".json")

/-- Modelled from the claim (C7): the comma-separated, 4-space-indented
`"key": "value"` lines of a pretty-printed flat JSON object. -/
def specPrettyLines : List (String × String) → String
  | [] => ""
  | [kv] => "    " ++ jsonQuote kv.1 ++ ": " ++ jsonQuote kv.2
  | kv :: kv2 :: rest =>
    "    " ++ jsonQuote kv.1 ++ ": " ++ jsonQuote kv.2 ++ ",\n" ++
      specPrettyLines (kv2 :: rest)

/-- Modelled from the claim (C7): standard pretty-printing of a flat
JSON object with 4-space indentation. -/
def specPretty (entries : List (String × String)) : String :=
  if entries.isEmpty then "\x7b\x7d"
  else "\x7b\n" ++ specPrettyLines entries ++ "\n\x7d"

/-! ### Lemmas about the JS object model -/

theorem jsObjGet_set_self {α : Type} (m : List (String × α)) (k : String) (v : α) :
    jsObjGet (jsObjSet m k v) k = some v := by
  induction m with
  | nil => simp [jsObjSet, jsObjGet]
  | cons e t ih =>
    by_cases h : e.1 = k
    · simp [jsObjSet, jsObjGet, h]
    · simp [jsObjSet, jsObjGet, h, ih]

theorem jsObjGet_set_ne {α : Type} (m : List (String × α)) (k q : String) (v : α)
    (h : q ≠ k) : jsObjGet (jsObjSet m k v) q = jsObjGet m q := by
  induction m with
  | nil => simp [jsObjSet, jsObjGet, Ne.symm h]
  | cons e t ih =>
    by_cases h2 : e.1 = k
    · subst h2
      have h3 : e.1 ≠ q := fun he => h (he.symm)
      simp [jsObjSet, jsObjGet, h3]
    · by_cases h3 : e.1 = q
      · simp only [jsObjSet, if_neg h2, jsObjGet, if_pos h3]
      · simp only [jsObjSet, if_neg h2, jsObjGet, if_neg h3, ih]

theorem jsObjSet_of_not_mem {α : Type} (m : List (String × α)) (k : String) (v : α)
    (h : k ∉ keysOf m) : jsObjSet m k v = m ++ [(k, v)] := by
  induction m with
  | nil => rfl
  | cons e t ih =>
    simp only [keysOf, List.map_cons, List.mem_cons] at h
    push_neg at h
    simp [jsObjSet, Ne.symm h.1, ih (by simpa [keysOf] using h.2)]

theorem keysOf_set_of_mem {α : Type} (m : List (String × α)) (k : String) (v : α)
    (h : k ∈ keysOf m) : keysOf (jsObjSet m k v) = keysOf m := by
  induction m with
  | nil => simp [keysOf] at h
  | cons e t ih =>
    by_cases h2 : e.1 = k
    · simp [jsObjSet, keysOf, h2]
    · simp only [keysOf, List.map_cons, List.mem_cons] at h
      rcases h with h | h
      · exact absurd h.symm h2
      · have ih2 := ih (by simpa [keysOf] using h)
        simp only [keysOf] at ih2
        simp [jsObjSet, h2, keysOf, ih2]

theorem keysOf_append {α : Type} (m1 m2 : List (String × α)) :
    keysOf (m1 ++ m2) = keysOf m1 ++ keysOf m2 := by
  simp [keysOf]

theorem jsObjGet_eq_none_iff {α : Type} (m : List (String × α)) (k : String) :
    jsObjGet m k = none ↔ k ∉ keysOf m := by
  induction m with
  | nil => simp [jsObjGet, keysOf]
  | cons e t ih =>
    by_cases h : e.1 = k
    · simp [jsObjGet, keysOf, h]
    · have h2 : jsObjGet (e :: t) k = jsObjGet t k := by simp [jsObjGet, h]
      rw [h2, ih]
      simp [keysOf, Ne.symm h]

theorem jsObjGet_isSome_iff {α : Type} (m : List (String × α)) (k : String) :
    (jsObjGet m k).isSome ↔ k ∈ keysOf m := by
  rw [Option.isSome_iff_ne_none, ne_eq, jsObjGet_eq_none_iff, not_not]

theorem nodup_keysOf_set {α : Type} (m : List (String × α)) (k : String) (v : α)
    (h : (keysOf m).Nodup) : (keysOf (jsObjSet m k v)).Nodup := by
  by_cases hm : k ∈ keysOf m
  · rw [keysOf_set_of_mem m k v hm]; exact h
  · rw [jsObjSet_of_not_mem m k v hm, keysOf_append]
    simp only [List.nodup_append]
    exact ⟨h, List.nodup_singleton k, by simpa [keysOf] using hm⟩

theorem jsObjSet_set_absorb {α : Type} (m : List (String × α)) (k : String) (v1 v2 : α) :
    jsObjSet (jsObjSet m k v1) k v2 = jsObjSet m k v2 := by
  induction m with
  | nil => simp [jsObjSet]
  | cons e t ih =>
    by_cases h : e.1 = k
    · simp [jsObjSet, h]
    · simp [jsObjSet, h, ih]

/-! ### Helper lemmas -/

theorem string_append_left_cancel {a b c : String} (h : a ++ b = a ++ c) : b = c := by
  have hd : a.data ++ b.data = a.data ++ c.data := by
    rw [← String.data_append, ← String.data_append, h]
  exact String.ext (List.append_cancel_left hd)

theorem dropLast_drop_one {α : Type} (l : List α) : (l.dropLast).drop 1 = (l.drop 1).dropLast := by
  cases l with
  | nil => rfl
  | cons a t =>
    cases t with
    | nil => rfl
    | cons b t2 => simp

theorem parsedFragOf_eq_some {f : VFile} {frag : Frag} (h : parsedFragOf f = some frag) :
    f.isNull = false ∧ f.isStream = false ∧ f.contents = Contents.json frag := by
  unfold parsedFragOf at h
  by_cases h1 : f.isNull || f.isStream
  · rw [if_pos h1] at h; exact absurd h (by simp)
  · rw [if_neg h1] at h
    simp only [Bool.or_eq_true, not_or, Bool.not_eq_true] at h1
    refine ⟨h1.1, h1.2, ?_⟩
    cases hc : f.contents with
    | json fr =>
      rw [hc] at h
      simp only [Option.some.injEq] at h
      rw [h]
    | malformed e => rw [hc] at h; exact absurd h (by simp)

theorem treatFile_of_parsed {f : VFile} {frag : Frag} (h : parsedFragOf f = some frag)
    (data : Data) : treatFile f data = (jsObjSet data (relPath f.path) frag, none) := by
  obtain ⟨h1, h2, h3⟩ := parsedFragOf_eq_some h
  unfold treatFile
  rw [h1, h2, h3]
  rfl

/-- Reading a key after `addProperties`: the last matching property of
the source wins; keys the source does not produce fall through to the
target. -/
theorem jsObjGet_addProperties (frag : Frag) (tgt : List (String × String)) (pa q : String) :
    jsObjGet (addProperties tgt frag pa) q =
      match (frag.filter (fun kv => pa ++ kv.1 == q)).getLast? with
      | some kv => some kv.2
      | none => jsObjGet tgt q := by
  induction frag generalizing tgt with
  | nil => rfl
  | cons kv rest ih =>
    have step : addProperties tgt (kv :: rest) pa =
        addProperties (jsObjSet tgt (pa ++ kv.1) kv.2) rest pa := rfl
    rw [step, ih]
    by_cases hm : pa ++ kv.1 = q
    · have hfc : List.filter (fun kv2 => pa ++ kv2.1 == q) (kv :: rest) =
          kv :: List.filter (fun kv2 => pa ++ kv2.1 == q) rest := by
        simp [List.filter_cons, hm]
      rw [hfc]
      cases hf : List.filter (fun kv2 => pa ++ kv2.1 == q) rest with
      | nil =>
        simp only [List.getLast?_nil, List.getLast?_singleton]
        rw [← hm, jsObjGet_set_self]
      | cons x xs =>
        rw [List.getLast?_cons_cons]
        cases hg : (x :: xs).getLast? with
        | none => simp at hg
        | some y => rfl
    · have hfc : List.filter (fun kv2 => pa ++ kv2.1 == q) (kv :: rest) =
          List.filter (fun kv2 => pa ++ kv2.1 == q) rest := by
        simp [List.filter_cons, hm]
      rw [hfc]
      cases hf : List.filter (fun kv2 => pa ++ kv2.1 == q) rest with
      | nil =>
        simp only [List.getLast?_nil]
        rw [jsObjGet_set_ne tgt (pa ++ kv.1) q kv.2 (fun he => hm he.symm)]
      | cons x xs => rfl

theorem jsForInKeys_singleton {α : Type} (k : String) (v : α) : jsForInKeys [(k, v)] = [k] := by
  unfold jsForInKeys keysOf
  by_cases h : isArrayIndexKey k <;> simp [h]

theorem mergeData_singleton (fp : String) (frag : Frag) :
    mergeData [(fp, frag)] =
      match prefixFor fp with
      | some pre => addProperties [] frag (pre ++ ".")
      | none => [] := by
  unfold mergeData
  rw [jsForInKeys_singleton]
  simp only [List.foldl_cons, List.foldl_nil, jsObjGet, if_pos rfl]
  rcases prefixFor fp with _ | pre <;> rfl

theorem jsSliceLast_ne_slash_iff (s : String) :
    jsSliceLast s ≠ "/" ↔ endsWithSlash s = false := by
  unfold jsSliceLast endsWithSlash
  cases h : s.data.getLast? with
  | none => simp [String.ext_iff]
  | some c =>
    by_cases hc : c = '/'
    · subst hc; simp [String.ext_iff]
    · simp [String.ext_iff, hc]

theorem lastOcc_eq_none (l pat : List Char) (h : containsSub l pat = false) :
    lastOcc l pat = none := by
  unfold lastOcc
  have hf : (List.range (l.length + 1)).filter (fun i => pat.isPrefixOf (l.drop i)) = [] := by
    rw [List.filter_eq_nil_iff]
    intro i hi hp
    unfold containsSub at h
    rw [List.any_eq_false] at h
    exact h i hi hp
  rw [hf]
  rfl

theorem jsObjGet_append {α : Type} (m1 m2 : List (String × α)) (q : String) :
    jsObjGet (m1 ++ m2) q = match jsObjGet m1 q with
      | some v => some v
      | none => jsObjGet m2 q := by
  induction m1 with
  | nil => rfl
  | cons e t ih =>
    by_cases h : e.1 = q
    · simp [jsObjGet, h]
    · simp [jsObjGet, h, ih]

theorem char_toNat_valid (c : Char) :
    c.toNat < 55296 ∨ (57343 < c.toNat ∧ c.toNat < 1114112) := by
  have h := c.valid
  unfold UInt32.isValidChar Nat.isValidChar at h
  have h2 : c.toNat = c.val.toNat := rfl
  omega

theorem char_toNat_inj {c1 c2 : Char} (h : c1.toNat = c2.toNat) : c1 = c2 :=
  Char.ext (UInt32.ext h)

theorem utf16Char_ne_nil (c : Char) : utf16Char c ≠ [] := by
  unfold utf16Char
  by_cases hc : c.toNat < 65536 <;> simp [hc]

theorem utf16Char_head_inj {c1 c2 : Char} {r1 r2 : List Nat}
    (h : utf16Char c1 ++ r1 = utf16Char c2 ++ r2) : c1 = c2 ∧ r1 = r2 := by
  have hv1 := char_toNat_valid c1
  have hv2 := char_toNat_valid c2
  unfold utf16Char at h
  by_cases h1 : c1.toNat < 65536 <;> by_cases h2 : c2.toNat < 65536
  · rw [if_pos h1, if_pos h2] at h
    simp only [List.singleton_append, List.cons.injEq] at h
    exact ⟨char_toNat_inj h.1, h.2⟩
  · rw [if_pos h1, if_neg h2] at h
    simp only [List.singleton_append, List.cons_append, List.cons.injEq] at h
    obtain ⟨ha, _⟩ := h
    exfalso
    omega
  · rw [if_neg h1, if_pos h2] at h
    simp only [List.singleton_append, List.cons_append, List.cons.injEq] at h
    obtain ⟨ha, _⟩ := h
    exfalso
    omega
  · rw [if_neg h1, if_neg h2] at h
    simp only [List.cons_append, List.nil_append, List.cons.injEq] at h
    obtain ⟨ha, hb, hc⟩ := h
    refine ⟨char_toNat_inj ?_, hc⟩
    omega

theorem utf16_data_inj : ∀ l1 l2 : List Char,
    (l1.map utf16Char).flatten = (l2.map utf16Char).flatten → l1 = l2 := by
  intro l1
  induction l1 with
  | nil =>
    intro l2 h
    cases l2 with
    | nil => rfl
    | cons c t =>
      exfalso
      simp only [List.map_nil, List.flatten_nil, List.map_cons, List.flatten_cons] at h
      rcases List.append_eq_nil.mp h.symm with ⟨h1, _⟩
      exact utf16Char_ne_nil c h1
  | cons c t ih =>
    intro l2 h
    cases l2 with
    | nil =>
      exfalso
      simp only [List.map_cons, List.flatten_cons, List.map_nil, List.flatten_nil] at h
      rcases List.append_eq_nil.mp h with ⟨h1, _⟩
      exact utf16Char_ne_nil c h1
    | cons c2 t2 =>
      simp only [List.map_cons, List.flatten_cons] at h
      obtain ⟨hc, hr⟩ := utf16Char_head_inj h
      rw [hc, ih t2 hr]

theorem utf16Units_inj {a b : String} (h : utf16Units a = utf16Units b) : a = b :=
  String.ext (utf16_data_inj _ _ h)

theorem unitsLT_of_le_ne : ∀ a b : List Nat,
    unitsLE a b = true → a ≠ b → unitsLT a b = true := by
  intro a
  induction a with
  | nil =>
    intro b _ hne
    cases b with
    | nil => exact absurd rfl hne
    | cons y ys => rfl
  | cons x xs ih =>
    intro b hle hne
    cases b with
    | nil => simp [unitsLE] at hle
    | cons y ys =>
      rw [unitsLE_cons_iff] at hle
      rw [unitsLT_cons_iff]
      rcases hle with h | ⟨h, hr⟩
      · left; exact h
      · right
        refine ⟨h, ih ys hr ?_⟩
        intro he
        exact hne (by rw [h, he])

theorem utf16Lt_of_le_ne {a b : String} (hle : Utf16Le a b) (hne : a ≠ b) : Utf16Lt a b :=
  unitsLT_of_le_ne _ _ hle (fun he => hne (utf16Units_inj he))

theorem jsSortStrings_perm (l : List String) : List.Perm (jsSortStrings l) l :=
  List.perm_insertionSort _ _

theorem jsSortStrings_sorted (l : List String) : List.Sorted Utf16Le (jsSortStrings l) :=
  List.sorted_insertionSort _ _

theorem jsForInKeys_perm {α : Type} (m : List (String × α)) :
    List.Perm (jsForInKeys m) (keysOf m) := by
  show List.Perm
    (List.insertionSort IdxLe ((keysOf m).filter (fun k => isArrayIndexKey k)) ++
      (keysOf m).filter (fun k => !isArrayIndexKey k)) (keysOf m)
  refine List.Perm.trans (List.Perm.append (List.perm_insertionSort _ _) (List.Perm.refl _)) ?_
  exact List.filter_append_perm _ _

theorem jsForInKeys_eq_keys {α : Type} (m : List (String × α))
    (h : ∀ k ∈ keysOf m, isArrayIndexKey k = false) : jsForInKeys m = keysOf m := by
  unfold jsForInKeys
  have h1 : (keysOf m).filter (fun k => isArrayIndexKey k) = [] := by
    rw [List.filter_eq_nil_iff]
    intro a ha
    simp [h a ha]
  have h2 : (keysOf m).filter (fun k => !isArrayIndexKey k) = keysOf m := by
    rw [List.filter_eq_self]
    intro a ha
    simp [h a ha]
  show List.insertionSort IdxLe ((keysOf m).filter (fun k => isArrayIndexKey k)) ++
    (keysOf m).filter (fun k => !isArrayIndexKey k) = keysOf m
  rw [h1, h2]
  rfl

theorem nodup_keysOf_addProperties (frag : Frag) (tgt : List (String × String)) (pa : String)
    (h : (keysOf tgt).Nodup) : (keysOf (addProperties tgt frag pa)).Nodup := by
  induction frag generalizing tgt with
  | nil => exact h
  | cons kv rest ih => exact ih _ (nodup_keysOf_set _ _ _ h)

theorem mergeFold_nodup (data : Data) (ks : List String) :
    ∀ acc : List (String × String), (keysOf acc).Nodup →
      (keysOf (ks.foldl (fun merged fp =>
        match jsObjGet data fp with
        | some frag =>
          match prefixFor fp with
          | some pre => addProperties merged frag (pre ++ ".")
          | none => merged
        | none => merged) acc)).Nodup := by
  induction ks with
  | nil => intro acc h; exact h
  | cons k t ih =>
    intro acc h
    rw [List.foldl_cons]
    apply ih
    rcases jsObjGet data k with _ | frag
    · exact h
    · rcases prefixFor k with _ | pre
      · exact h
      · exact nodup_keysOf_addProperties _ _ _ h

theorem nodup_keysOf_mergeData (data : Data) : (keysOf (mergeData data)).Nodup := by
  unfold mergeData
  exact mergeFold_nodup data (jsForInKeys data) [] (by simp [keysOf])

theorem mem_keysOf_set {α : Type} {m : List (String × α)} {k q : String} {v : α}
    (h : q ∈ keysOf (jsObjSet m k v)) : q = k ∨ q ∈ keysOf m := by
  by_cases hm : k ∈ keysOf m
  · rw [keysOf_set_of_mem _ _ _ hm] at h
    right; exact h
  · rw [jsObjSet_of_not_mem _ _ _ hm, keysOf_append] at h
    rcases List.mem_append.mp h with h | h
    · right; exact h
    · left; simpa [keysOf] using h

theorem mem_keysOf_addProperties {frag : Frag} {tgt : List (String × String)} {pa q : String}
    (h : q ∈ keysOf (addProperties tgt frag pa)) :
    q ∈ keysOf tgt ∨ ∃ kv ∈ frag, q = pa ++ kv.1 := by
  induction frag generalizing tgt with
  | nil => left; exact h
  | cons kv rest ih =>
    rcases ih h with h2 | ⟨kv2, hkv2, he⟩
    · rcases mem_keysOf_set h2 with he | hm
      · right; exact ⟨kv, List.mem_cons_self _ _, he⟩
      · left; exact hm
    · right; exact ⟨kv2, List.mem_cons_of_mem _ hkv2, he⟩

theorem mergeFold_dot (data : Data) (ks : List String) :
    ∀ acc : List (String × String), (∀ k ∈ keysOf acc, '.' ∈ k.data) →
      ∀ q ∈ keysOf (ks.foldl (fun merged fp =>
        match jsObjGet data fp with
        | some frag =>
          match prefixFor fp with
          | some pre => addProperties merged frag (pre ++ ".")
          | none => merged
        | none => merged) acc), '.' ∈ q.data := by
  induction ks with
  | nil => intro acc hacc q hq; exact hacc q hq
  | cons k t ih =>
    intro acc hacc
    rw [List.foldl_cons]
    apply ih
    rcases jsObjGet data k with _ | frag
    · exact hacc
    · rcases prefixFor k with _ | pre
      · exact hacc
      · intro k2 hk2
        rcases mem_keysOf_addProperties hk2 with hin | ⟨kv, _, he⟩
        · exact hacc k2 hin
        · subst he
          have hd : ((pre ++ ".") ++ kv.1).data = (pre.data ++ ['.']) ++ kv.1.data := rfl
          rw [hd]
          exact List.mem_append.mpr (Or.inl (List.mem_append.mpr (Or.inr (by simp))))

theorem dot_mem_mergeData (data : Data) : ∀ q ∈ keysOf (mergeData data), '.' ∈ q.data := by
  unfold mergeData
  exact mergeFold_dot data (jsForInKeys data) [] (by simp [keysOf])

theorem orderFold (mrg : List (String × String)) :
    ∀ (ks : List String) (acc : List (String × String)),
      ks.Nodup → (∀ k ∈ ks, k ∈ keysOf mrg) → (∀ k ∈ ks, k ∉ keysOf acc) →
      keysOf (ks.foldl (fun mo k =>
          match jsObjGet mrg k with
          | some v => jsObjSet mo k v
          | none => mo) acc) = keysOf acc ++ ks ∧
      ∀ q, jsObjGet (ks.foldl (fun mo k =>
          match jsObjGet mrg k with
          | some v => jsObjSet mo k v
          | none => mo) acc) q = if q ∈ ks then jsObjGet mrg q else jsObjGet acc q := by
  intro ks
  induction ks with
  | nil =>
    intro acc _ _ _
    refine ⟨by simp, fun q => by simp⟩
  | cons k t ih =>
    intro acc hnd hmem hdis
    have hk : k ∈ keysOf mrg := hmem k (List.mem_cons_self _ _)
    obtain ⟨v, hv⟩ := Option.isSome_iff_exists.mp ((jsObjGet_isSome_iff _ _).mpr hk)
    obtain ⟨hk_t, hndt⟩ := List.nodup_cons.mp hnd
    rw [List.foldl_cons]
    have hstep : (match jsObjGet mrg k with
        | some v => jsObjSet acc k v
        | none => acc) = acc ++ [(k, v)] := by
      rw [hv]
      exact jsObjSet_of_not_mem _ _ _ (hdis k (List.mem_cons_self _ _))
    rw [hstep]
    have hdis2 : ∀ k2 ∈ t, k2 ∉ keysOf (acc ++ [(k, v)]) := by
      intro k2 h2 hmem2
      rw [keysOf_append] at hmem2
      rcases List.mem_append.mp hmem2 with hh | hh
      · exact hdis k2 (List.mem_cons_of_mem _ h2) hh
      · simp only [keysOf, List.map_cons, List.map_nil, List.mem_singleton] at hh
        exact hk_t (hh ▸ h2)
    obtain ⟨ihk, ihg⟩ := ih (acc ++ [(k, v)]) hndt
      (fun k2 h2 => hmem k2 (List.mem_cons_of_mem _ h2)) hdis2
    constructor
    · rw [ihk, keysOf_append]
      simp [keysOf]
    · intro q
      rw [ihg q]
      by_cases hq : q ∈ t
      · rw [if_pos hq, if_pos (List.mem_cons_of_mem _ hq)]
      · rw [if_neg hq]
        by_cases hq2 : q = k
        · subst hq2
          rw [if_pos (List.mem_cons_self _ _), jsObjGet_append]
          rw [(jsObjGet_eq_none_iff _ _).mpr (hdis q (List.mem_cons_self _ _))]
          show jsObjGet [(q, v)] q = jsObjGet mrg q
          rw [hv]
          simp [jsObjGet]
        · have hq3 : q ∉ (k :: t) := by
            intro hc
            rcases List.mem_cons.mp hc with hc | hc
            · exact hq2 hc
            · exact hq hc
          rw [if_neg hq3, jsObjGet_append]
          rcases hacc : jsObjGet acc q with _ | w
          · show jsObjGet [(k, v)] q = none
            have hne : ¬k = q := fun he => hq2 he.symm
            simp [jsObjGet, hne]
          · rfl

theorem orderData_eq (data : Data) : orderData data =
    (jsSortStrings (jsForInKeys (mergeData data))).foldl (fun mo k =>
      match jsObjGet (mergeData data) k with
      | some v => jsObjSet mo k v
      | none => mo) [] := rfl

theorem sortedKeys_perm (data : Data) :
    List.Perm (jsSortStrings (jsForInKeys (mergeData data))) (keysOf (mergeData data)) :=
  (jsSortStrings_perm _).trans (jsForInKeys_perm _)

theorem sortedKeys_nodup (data : Data) :
    (jsSortStrings (jsForInKeys (mergeData data))).Nodup :=
  (sortedKeys_perm data).symm.nodup (nodup_keysOf_mergeData data)

theorem orderData_keys (data : Data) :
    keysOf (orderData data) = jsSortStrings (jsForInKeys (mergeData data)) := by
  obtain ⟨hkeys, _⟩ := orderFold (mergeData data) (jsSortStrings (jsForInKeys (mergeData data)))
    [] (sortedKeys_nodup data) (fun k hk => (sortedKeys_perm data).mem_iff.mp hk)
    (fun k _ => by simp [keysOf])
  rw [orderData_eq, hkeys]
  simp [keysOf]

theorem orderData_get (data : Data) (q : String) :
    jsObjGet (orderData data) q = jsObjGet (mergeData data) q := by
  obtain ⟨_, hget⟩ := orderFold (mergeData data) (jsSortStrings (jsForInKeys (mergeData data)))
    [] (sortedKeys_nodup data) (fun k hk => (sortedKeys_perm data).mem_iff.mp hk)
    (fun k _ => by simp [keysOf])
  rw [orderData_eq, hget q]
  by_cases hq : q ∈ jsSortStrings (jsForInKeys (mergeData data))
  · rw [if_pos hq]
  · rw [if_neg hq]
    have hqm : q ∉ keysOf (mergeData data) := fun hc => hq ((sortedKeys_perm data).mem_iff.mpr hc)
    rw [(jsObjGet_eq_none_iff _ _).mpr hqm]
    rfl

theorem joinComma_eq_specPrettyLines : ∀ entries : List (String × String),
    joinComma (entries.map (fun kv => "    " ++ jsonQuote kv.1 ++ ": " ++ jsonQuote kv.2)) =
      specPrettyLines entries := by
  intro entries
  induction entries with
  | nil => rfl
  | cons kv rest ih =>
    cases rest with
    | nil => rfl
    | cons kv2 rest2 =>
      show ("    " ++ jsonQuote kv.1 ++ ": " ++ jsonQuote kv.2) ++ ",\n" ++
          joinComma ((kv2 :: rest2).map
            (fun kv => "    " ++ jsonQuote kv.1 ++ ": " ++ jsonQuote kv.2)) =
        specPrettyLines (kv :: kv2 :: rest2)
      rw [ih]
      rfl

theorem filterMap_keys_self (m : List (String × String)) (h : (keysOf m).Nodup) :
    (keysOf m).filterMap (fun k => (jsObjGet m k).map (fun v => (k, v))) = m := by
  induction m with
  | nil => rfl
  | cons e t ih =>
    have hh := List.nodup_cons.mp (show (e.1 :: keysOf t).Nodup by simpa [keysOf] using h)
    have hcong : (keysOf t).filterMap (fun k => (jsObjGet (e :: t) k).map (fun v => (k, v))) =
        (keysOf t).filterMap (fun k => (jsObjGet t k).map (fun v => (k, v))) := by
      apply List.filterMap_congr
      intro k hk
      have hne : ¬e.1 = k := fun hc => hh.1 (hc ▸ hk)
      simp [jsObjGet, hne]
    show List.filterMap (fun k => (jsObjGet (e :: t) k).map (fun v => (k, v)))
      (e.1 :: keysOf t) = e :: t
    rw [List.filterMap_cons]
    have hg : jsObjGet (e :: t) e.1 = some e.2 := by simp [jsObjGet]
    rw [hg]
    show (e.1, e.2) :: List.filterMap (fun k => (jsObjGet (e :: t) k).map (fun v => (k, v)))
      (keysOf t) = e :: t
    rw [hcong, ih hh.2]

theorem dot_not_idx {k : String} (h : '.' ∈ k.data) : isArrayIndexKey k = false := by
  unfold isArrayIndexKey
  cases hd : k.data with
  | nil => rfl
  | cons c t =>
    rw [hd] at h
    have hdig : ((c :: t).all Char.isDigit) = false := by
      rw [List.all_eq_false]
      exact ⟨'.', h, by decide⟩
    show ((c :: t).all Char.isDigit && (c != '0' || t.isEmpty) &&
      decide (natOfDigits (c :: t) < 4294967295)) = false
    rw [hdig]
    rfl

theorem lastChar_append_closing (a : String) : lastChar (a ++ "\n\x7d") = some '\x7d' := by
  unfold lastChar
  show (a.data ++ ['\n', '\x7d']).getLast? = some '\x7d'
  rw [List.getLast?_append]
  rfl

theorem lastChar_jsonStringify4 (obj : List (String × String)) :
    lastChar (jsonStringify4 obj) = some '\x7d' := by
  unfold jsonStringify4
  cases hE : (jsForInKeys obj).filterMap (fun k => (jsObjGet obj k).map (fun v => (k, v))) with
  | nil => rfl
  | cons e rest => exact lastChar_append_closing _

theorem jsonStringify4_eq_specPretty (obj : List (String × String))
    (h1 : jsForInKeys obj = keysOf obj) (h2 : (keysOf obj).Nodup) :
    jsonStringify4 obj = specPretty obj := by
  unfold jsonStringify4
  rw [h1, filterMap_keys_self obj h2]
  cases obj with
  | nil => rfl
  | cons e t =>
    show "\x7b\n" ++ joinComma ((e :: t).map
        (fun kv => "    " ++ jsonQuote kv.1 ++ ": " ++ jsonQuote kv.2)) ++ "\n\x7d" =
      specPretty (e :: t)
    rw [joinComma_eq_specPrettyLines]
    rfl

/-- The entry a file contributes to the accumulated `data`, if any. -/
def parsedEntryOf (f : VFile) : Option (String × Frag) :=
  (parsedFragOf f).map (fun frag => (relPath f.path, frag))

/-- One fragment's merge action on the accumulating object. -/
def mergeStep (merged : List (String × String)) (e : String × Frag) :
    List (String × String) :=
  match prefixFor e.1 with
  | some pre => addProperties merged e.2 (pre ++ ".")
  | none => merged

/-- The value a single `data` entry assigns to the fully-qualified key
`q` (the last matching property winning), if any. -/
def lastContribution (e : String × Frag) (q : String) : Option String :=
  match prefixFor e.1 with
  | some pre =>
    match (e.2.filter (fun kv => pre ++ "." ++ kv.1 == q)).getLast? with
    | some kv => some kv.2
    | none => none
  | none => none

/-- The value the fully-qualified key `q` ends up with after merging a
list of `data` entries in order (later entries winning). -/
def specLastEntry (L : List (String × Frag)) (q : String) : Option String :=
  L.foldl (fun acc e =>
    match lastContribution e q with
    | some v => some v
    | none => acc) none

/-- The prefixed key set one `data` entry contributes. -/
def entryKeys (e : String × Frag) : List String :=
  match prefixFor e.1 with
  | some pre => e.2.map (fun kv => pre ++ "." ++ kv.1)
  | none => []

theorem treatFile_data_of_not_parsed {f : VFile} (hp : parsedFragOf f = none) (d : Data) :
    (treatFile f d).1 = d := by
  unfold treatFile
  by_cases h1 : f.isNull || f.isStream
  · rw [if_pos h1]
  · rw [if_neg h1]
    unfold parsedFragOf at hp
    rw [if_neg h1] at hp
    cases hc : f.contents with
    | json frag => rw [hc] at hp; simp at hp
    | malformed err => rfl

theorem foldl_congr_mem {α β : Type} : ∀ (l : List α) (f g : β → α → β),
    (∀ b, ∀ a ∈ l, f b a = g b a) → ∀ acc, l.foldl f acc = l.foldl g acc := by
  intro l
  induction l with
  | nil => intro f g _ acc; rfl
  | cons x t ih =>
    intro f g h acc
    rw [List.foldl_cons, List.foldl_cons, h acc x (List.mem_cons_self _ _)]
    exact ih f g (fun b a ha => h b a (List.mem_cons_of_mem _ ha)) _

theorem ingest_fold_eq (files : List VFile) :
    ∀ d : Data,
      ((files.filterMap parsedEntryOf).map (fun e => e.1)).Nodup →
      (∀ e ∈ files.filterMap parsedEntryOf, e.1 ∉ keysOf d) →
      files.foldl (fun d2 f => (treatFile f d2).1) d = d ++ files.filterMap parsedEntryOf := by
  induction files with
  | nil => intro d _ _; simp
  | cons f fs ih =>
    intro d hnd hdis
    rw [List.foldl_cons]
    cases hp : parsedFragOf f with
    | none =>
      have hent : parsedEntryOf f = none := by unfold parsedEntryOf; rw [hp]; rfl
      have hfm : (f :: fs).filterMap parsedEntryOf = fs.filterMap parsedEntryOf := by
        rw [List.filterMap_cons, hent]
      rw [hfm] at hnd hdis ⊢
      rw [treatFile_data_of_not_parsed hp d]
      exact ih d hnd hdis
    | some frag =>
      have hent : parsedEntryOf f = some (relPath f.path, frag) := by
        unfold parsedEntryOf; rw [hp]; rfl
      have hfm : (f :: fs).filterMap parsedEntryOf =
          (relPath f.path, frag) :: fs.filterMap parsedEntryOf := by
        rw [List.filterMap_cons, hent]
      rw [hfm] at hnd hdis ⊢
      rw [List.map_cons] at hnd
      obtain ⟨hrel_not, hndt⟩ := List.nodup_cons.mp hnd
      rw [treatFile_of_parsed hp]
      show fs.foldl (fun d2 f => (treatFile f d2).1) (jsObjSet d (relPath f.path) frag) = _
      rw [jsObjSet_of_not_mem d _ _ (hdis _ (List.mem_cons_self _ _))]
      have hdis2 : ∀ e ∈ fs.filterMap parsedEntryOf,
          e.1 ∉ keysOf (d ++ [(relPath f.path, frag)]) := by
        intro e he hmem
        rw [keysOf_append] at hmem
        rcases List.mem_append.mp hmem with hh | hh
        · exact hdis e (List.mem_cons_of_mem _ he) hh
        · simp only [keysOf, List.map_cons, List.map_nil, List.mem_singleton] at hh
          exact hrel_not (hh ▸ List.mem_map_of_mem (fun e => e.1) he)
      rw [ih (d ++ [(relPath f.path, frag)]) hndt hdis2]
      simp

theorem mergeKeysFold_eq : ∀ L : Data, (keysOf L).Nodup →
    ∀ acc, (keysOf L).foldl (fun merged fp =>
        match jsObjGet L fp with
        | some frag =>
          match prefixFor fp with
          | some pre => addProperties merged frag (pre ++ ".")
          | none => merged
        | none => merged) acc = L.foldl mergeStep acc := by
  intro L
  induction L with
  | nil => intro _ acc; rfl
  | cons e t ih =>
    intro hnd acc
    have hh := List.nodup_cons.mp (show (e.1 :: keysOf t).Nodup by simpa [keysOf] using hnd)
    show (e.1 :: keysOf t).foldl _ acc = _
    rw [List.foldl_cons]
    have hg : jsObjGet (e :: t) e.1 = some e.2 := by simp [jsObjGet]
    have hstep : (match jsObjGet (e :: t) e.1 with
        | some frag =>
          match prefixFor e.1 with
          | some pre => addProperties acc frag (pre ++ ".")
          | none => acc
        | none => acc) = mergeStep acc e := by
      rw [hg]
      rfl
    rw [hstep]
    have hcong : ∀ (b : List (String × String)), ∀ fp ∈ keysOf t,
        (match jsObjGet (e :: t) fp with
          | some frag =>
            match prefixFor fp with
            | some pre => addProperties b frag (pre ++ ".")
            | none => b
          | none => b) =
        (match jsObjGet t fp with
          | some frag =>
            match prefixFor fp with
            | some pre => addProperties b frag (pre ++ ".")
            | none => b
          | none => b) := by
      intro b fp hfp
      have hne : ¬e.1 = fp := fun hc => hh.1 (hc ▸ hfp)
      have hgt : jsObjGet (e :: t) fp = jsObjGet t fp := by simp [jsObjGet, hne]
      rw [hgt]
    rw [foldl_congr_mem (keysOf t) _ _ hcong (mergeStep acc e)]
    rw [List.foldl_cons]
    exact ih hh.2 _

theorem mergeData_eq_entries_fold (L : Data)
    (hidx : ∀ k ∈ keysOf L, isArrayIndexKey k = false) (hnd : (keysOf L).Nodup) :
    mergeData L = L.foldl mergeStep [] := by
  unfold mergeData
  rw [jsForInKeys_eq_keys L hidx]
  exact mergeKeysFold_eq L hnd []

theorem specLastEntry_append (L : List (String × Frag)) (e : String × Frag) (q : String) :
    specLastEntry (L ++ [e]) q =
      match lastContribution e q with
      | some v => some v
      | none => specLastEntry L q := by
  unfold specLastEntry
  rw [List.foldl_append, List.foldl_cons, List.foldl_nil]

theorem jsObjGet_mergeEntries (q : String) : ∀ (L : List (String × Frag)) (acc),
    jsObjGet (L.foldl mergeStep acc) q =
      match specLastEntry L q with
      | some v => some v
      | none => jsObjGet acc q := by
  intro L
  induction L using List.reverseRecOn with
  | nil => intro acc; rfl
  | append_singleton L e ih =>
    intro acc
    rw [List.foldl_append, List.foldl_cons, List.foldl_nil, specLastEntry_append]
    cases hpre : prefixFor e.1 with
    | none =>
      have h1 : mergeStep (List.foldl mergeStep acc L) e = List.foldl mergeStep acc L := by
        unfold mergeStep
        rw [hpre]
      have h2 : lastContribution e q = none := by
        unfold lastContribution
        rw [hpre]
      rw [h1, h2, ih acc]
    | some pre =>
      have h1 : mergeStep (List.foldl mergeStep acc L) e =
          addProperties (List.foldl mergeStep acc L) e.2 (pre ++ ".") := by
        unfold mergeStep
        rw [hpre]
      rw [h1, jsObjGet_addProperties]
      cases hl : (e.2.filter (fun kv => (pre ++ ".") ++ kv.1 == q)).getLast? with
      | none =>
        have h2 : lastContribution e q = none := by
          unfold lastContribution
          rw [hpre]
          show (match (e.2.filter (fun kv => pre ++ "." ++ kv.1 == q)).getLast? with
            | some kv => some kv.2
            | none => none) = none
          rw [hl]
        rw [h2, ih acc]
      | some kv =>
        have h2 : lastContribution e q = some kv.2 := by
          unfold lastContribution
          rw [hpre]
          show (match (e.2.filter (fun kv => pre ++ "." ++ kv.1 == q)).getLast? with
            | some kv => some kv.2
            | none => none) = some kv.2
          rw [hl]
        rw [h2]

theorem specLastValue_step (q : String) (f : VFile) (r : Option String) :
    (match parsedFragOf f, prefixFor (relPath f.path) with
      | some frag, some pre =>
        match (frag.filter (fun kv => pre ++ "." ++ kv.1 == q)).getLast? with
        | some kv => some kv.2
        | none => r
      | _, _ => r) =
    (match parsedEntryOf f with
      | some e =>
        match lastContribution e q with
        | some v => some v
        | none => r
      | none => r) := by
  cases hp : parsedFragOf f with
  | none =>
    have hent : parsedEntryOf f = none := by unfold parsedEntryOf; rw [hp]; rfl
    rw [hent]
  | some frag =>
    have hent : parsedEntryOf f = some (relPath f.path, frag) := by
      unfold parsedEntryOf; rw [hp]; rfl
    rw [hent]
    show (match some frag, prefixFor (relPath f.path) with
      | some frag, some pre =>
        match (frag.filter (fun kv => pre ++ "." ++ kv.1 == q)).getLast? with
        | some kv => some kv.2
        | none => r
      | _, _ => r) =
      (match lastContribution (relPath f.path, frag) q with
        | some v => some v
        | none => r)
    have hlc : lastContribution (relPath f.path, frag) q =
        match prefixFor (relPath f.path) with
        | some pre =>
          match (frag.filter (fun kv => pre ++ "." ++ kv.1 == q)).getLast? with
          | some kv => some kv.2
          | none => none
        | none => none := rfl
    rw [hlc]
    cases hpre : prefixFor (relPath f.path) with
    | none => rfl
    | some pre =>
      show (match (frag.filter (fun kv => pre ++ "." ++ kv.1 == q)).getLast? with
          | some kv => some kv.2
          | none => r) =
        (match (match (frag.filter (fun kv => pre ++ "." ++ kv.1 == q)).getLast? with
            | some kv => some kv.2
            | none => none) with
          | some v => some v
          | none => r)
      cases (frag.filter (fun kv => pre ++ "." ++ kv.1 == q)).getLast? with
      | none => rfl
      | some kv => rfl

theorem specLastValue_eq (q : String) : ∀ files : List VFile,
    specLastValue files q = specLastEntry (files.filterMap parsedEntryOf) q := by
  have haux : ∀ (files : List VFile) (r : Option String),
      files.foldl (fun acc f =>
        match parsedFragOf f, prefixFor (relPath f.path) with
        | some frag, some pre =>
          match (frag.filter (fun kv => pre ++ "." ++ kv.1 == q)).getLast? with
          | some kv => some kv.2
          | none => acc
        | _, _ => acc) r =
      (files.filterMap parsedEntryOf).foldl (fun acc e =>
        match lastContribution e q with
        | some v => some v
        | none => acc) r := by
    intro files
    induction files with
    | nil => intro r; rfl
    | cons f fs ih =>
      intro r
      rw [List.foldl_cons, specLastValue_step q f r]
      cases hent : parsedEntryOf f with
      | none =>
        rw [show (f :: fs).filterMap parsedEntryOf = fs.filterMap parsedEntryOf by
          rw [List.filterMap_cons, hent]]
        exact ih r
      | some e =>
        rw [show (f :: fs).filterMap parsedEntryOf = e :: fs.filterMap parsedEntryOf by
          rw [List.filterMap_cons, hent]]
        rw [List.foldl_cons]
        exact ih _
  intro files
  unfold specLastValue specLastEntry
  exact haux files none

theorem specKeyUnion_eq : ∀ files : List VFile,
    specKeyUnion files = (files.filterMap parsedEntryOf).flatMap entryKeys := by
  intro files
  induction files with
  | nil => rfl
  | cons f fs ih =>
    unfold specKeyUnion at ih ⊢
    rw [List.flatMap_cons]
    cases hp : parsedFragOf f with
    | none =>
      have hent : parsedEntryOf f = none := by unfold parsedEntryOf; rw [hp]; rfl
      rw [show (f :: fs).filterMap parsedEntryOf = fs.filterMap parsedEntryOf by
        rw [List.filterMap_cons, hent]]
      rw [ih]
      rfl
    | some frag =>
      have hent : parsedEntryOf f = some (relPath f.path, frag) := by
        unfold parsedEntryOf; rw [hp]; rfl
      rw [show (f :: fs).filterMap parsedEntryOf =
          (relPath f.path, frag) :: fs.filterMap parsedEntryOf by
        rw [List.filterMap_cons, hent]]
      rw [List.flatMap_cons, ih]
      have hek : entryKeys (relPath f.path, frag) =
          match prefixFor (relPath f.path) with
          | some pre => frag.map (fun kv => pre ++ "." ++ kv.1)
          | none => [] := rfl
      rw [hek]
      cases hpre : prefixFor (relPath f.path) with
      | none => rfl
      | some pre => rfl

theorem specLastEntry_ne_none_iff (q : String) : ∀ L : List (String × Frag),
    specLastEntry L q ≠ none ↔ q ∈ L.flatMap entryKeys := by
  intro L
  induction L using List.reverseRecOn with
  | nil => simp [specLastEntry]
  | append_singleton L e ih =>
    rw [specLastEntry_append, List.flatMap_append]
    cases hlc : lastContribution e q with
    | none =>
      have hq : q ∉ entryKeys e := by
        unfold entryKeys
        unfold lastContribution at hlc
        cases hpre : prefixFor e.1 with
        | none => simp
        | some pre =>
          rw [hpre] at hlc
          intro hqm
          simp only [List.mem_map] at hqm
          obtain ⟨kv, hkv, hkey⟩ := hqm
          cases hl : (e.2.filter (fun kv => (pre ++ ".") ++ kv.1 == q)).getLast? with
          | none =>
            have hfil_nil : e.2.filter (fun kv => (pre ++ ".") ++ kv.1 == q) = [] := by
              cases hf : e.2.filter (fun kv => (pre ++ ".") ++ kv.1 == q) with
              | nil => rfl
              | cons x xs => rw [hf] at hl; simp at hl
            have hmem2 : kv ∈ e.2.filter (fun kv => (pre ++ ".") ++ kv.1 == q) :=
              List.mem_filter.mpr ⟨hkv, by simpa using hkey⟩
            rw [hfil_nil] at hmem2
            exact absurd hmem2 (List.not_mem_nil kv)
          | some kv2 =>
            have hlc2 : (match (e.2.filter (fun kv => pre ++ "." ++ kv.1 == q)).getLast? with
                | some kv => some kv.2
                | none => (none : Option String)) = none := hlc
            rw [hl] at hlc2
            simp at hlc2
      show specLastEntry L q ≠ none ↔ _
      rw [ih]
      simp [hq]
    | some v =>
      have hq : q ∈ entryKeys e := by
        unfold entryKeys
        unfold lastContribution at hlc
        cases hpre : prefixFor e.1 with
        | none => rw [hpre] at hlc; simp at hlc
        | some pre =>
          rw [hpre] at hlc
          cases hl : (e.2.filter (fun kv => (pre ++ ".") ++ kv.1 == q)).getLast? with
          | none =>
            have hlc2 : (match (e.2.filter (fun kv => pre ++ "." ++ kv.1 == q)).getLast? with
                | some kv => some kv.2
                | none => (none : Option String)) = some v := hlc
            rw [hl] at hlc2
            simp at hlc2
          | some kv2 =>
            obtain ⟨ys, hys⟩ := List.getLast?_eq_some_iff.mp hl
            have hkv2 : kv2 ∈ e.2.filter (fun kv => (pre ++ ".") ++ kv.1 == q) := by
              rw [hys]; simp
            obtain ⟨hin, hpred⟩ := List.mem_filter.mp hkv2
            simp only [beq_iff_eq] at hpred
            exact List.mem_map.mpr ⟨kv2, hin, hpred⟩
      constructor
      · intro _
        exact List.mem_append.mpr (Or.inr (by simpa using hq))
      · intro _
        simp

theorem dispatch_eq_amended (comps : List String) :
    prefixFromSegs comps = claimDispatchSegsAmended comps := by
  cases comps with
  | nil => rfl
  | cons x t =>
    by_cases hx1 : x = "lang"
    · subst hx1; rfl
    by_cases hx2 : x = "core"
    · subst hx2; rfl
    by_cases hx3 : x = "addon"
    · subst hx3
      show some ("addon." ++ "_".intercalate ((("addon" :: t).dropLast).drop 1)) =
        some ("addon." ++ "_".intercalate ((("addon" :: t).drop 1).dropLast))
      rw [dropLast_drop_one]
    by_cases hx4 : x = "assets"
    · subst hx4; rfl
    have e1 : prefixFromSegs (x :: t) = none := by
      unfold prefixFromSegs
      split <;> simp_all
    have e2 : claimDispatchSegsAmended (x :: t) = none := by
      unfold claimDispatchSegsAmended
      split <;> simp_all
    rw [e1, e2]

/-! ### Claims -/

/-- C1 counterexample: the path `addon/calendar/en.json` has no trailing
`lang` segment, yet the source drops the final remaining segment anyway,
producing `addon.` where the claimed dispatch produces
`addon.calendar`. -/
theorem c1_counterexample :
    prefixFor "addon/calendar/en.json" = some "addon." ∧
    claimDispatchC1 "addon/calendar/en.json" = some "addon.calendar" ∧
    prefixFor "addon/calendar/en.json" ≠ claimDispatchC1 "addon/calendar/en.json" := by decide

/-- C1 amended: the namespace dispatch is as claimed except that for
root `addon` the final remaining segment is dropped unconditionally
(not only when it equals `lang`); the example path
`addon/mod_assign/lang/en.json` yields `addon.mod_assign`, and its key
`baz` appears in the merged table as `addon.mod_assign.baz`. -/
theorem c1_prefix_dispatch :
    (∀ p : String, prefixFor p = claimDispatchAmended p) ∧
    prefixFor "addon/mod_assign/lang/en.json" = some "addon.mod_assign" ∧
    (∀ v : String,
      jsObjGet (mergeData [("addon/mod_assign/lang/en.json", [("baz", v)])])
        "addon.mod_assign.baz" = some v) :=
  ⟨fun _ => dispatch_eq_amended _, by decide, fun _ => rfl⟩

/-- C8: when no fragment was ever successfully ingested (the accumulated
data is empty), finalisation still produces the serialisation of the
empty JSON object. -/
theorem c8_empty_serialization : treatMergedData [] = "\x7b\x7d" := by decide

/-- C5 counterexample: for the path `lang/en.json`, which contains
neither `/src/` nor `\src\`, the computed relative path is not the whole
path — `substr(-1 + 5)` drops its first four characters. -/
theorem c5_counterexample :
    containsSub ("lang/en.json").data ("/src/").data = false ∧
    containsSub ("lang/en.json").data ("\\src\\").data = false ∧
    relPath "lang/en.json" = "/en.json" ∧
    relPath "lang/en.json" ≠ "lang/en.json" := by decide

/-- C5 amended: when neither `/src/` nor `\src\` occurs in the path, the
relative path is the whole path with its first four characters dropped
(`substr(srcPos + 5)` with `srcPos = -1`). -/
theorem c5_relative_path_no_marker (p : String)
    (h1 : containsSub p.data ("/src/").data = false)
    (h2 : containsSub p.data ("\\src\\").data = false) :
    relPath p = String.mk (p.data.drop 4) := by
  have h3 : jsLastIndexOf p "/src/" = -1 := by
    unfold jsLastIndexOf
    rw [lastOcc_eq_none _ _ h1]
  have h4 : jsLastIndexOf p "\\src\\" = -1 := by
    unfold jsLastIndexOf
    rw [lastOcc_eq_none _ _ h2]
  show jsSubstrFrom p
      ((if jsLastIndexOf p "/src/" = -1 then jsLastIndexOf p "\\src\\"
        else jsLastIndexOf p "/src/") + 5) = String.mk (p.data.drop 4)
  rw [h3, h4]
  rfl

theorem c5_relative_path_no_marker_witness : relPath "lang/en.json" = "/en.json" := by
  rw [c5_relative_path_no_marker "lang/en.json" (by decide) (by decide)]
  decide

/-- C2 counterexample: two successfully parsed fragments with the same
relative path — the claimed invariant fails because the later fragment
replaces the earlier one wholesale, so `core.a` is in the union over all
parsed fragments yet absent from the merged table. -/
theorem c2_counterexample :
    "core.a" ∈ specKeyUnion
        [⟨"/r/src/lang/en.json", false, false, Contents.json [("a", "1")]⟩,
          ⟨"/r/src/lang/en.json", false, false, Contents.json [("b", "2")]⟩] ∧
    jsObjGet (mergeData (ingestData
        [⟨"/r/src/lang/en.json", false, false, Contents.json [("a", "1")]⟩,
          ⟨"/r/src/lang/en.json", false, false, Contents.json [("b", "2")]⟩])) "core.a" =
      none ∧
    "core.a" ∉ keysOf (mergeData (ingestData
        [⟨"/r/src/lang/en.json", false, false, Contents.json [("a", "1")]⟩,
          ⟨"/r/src/lang/en.json", false, false, Contents.json [("b", "2")]⟩])) := by decide

/-- C2 amended: provided the computed relative paths of the successfully
parsed fragments are pairwise distinct (and none is a JS array-index
string, so `for...in` follows insertion order), the merged table maps
each fully-qualified key to the value from the last fragment, in supply
order, that defines it, and its key set is exactly the union of the
prefixed key sets of the parsed fragments. -/
theorem c2_merge_invariant (files : List VFile) (q : String)
    (hnd : ((files.filterMap parsedEntryOf).map (fun e => e.1)).Nodup)
    (hidx : ∀ e ∈ files.filterMap parsedEntryOf, isArrayIndexKey e.1 = false) :
    jsObjGet (mergeData (ingestData files)) q = specLastValue files q ∧
    (q ∈ keysOf (mergeData (ingestData files)) ↔ q ∈ specKeyUnion files) := by
  have hing : ingestData files = files.filterMap parsedEntryOf := by
    unfold ingestData
    rw [ingest_fold_eq files [] hnd (fun e _ => by simp [keysOf])]
    rfl
  have hkeysidx : ∀ k ∈ keysOf (files.filterMap parsedEntryOf), isArrayIndexKey k = false := by
    intro k hk
    obtain ⟨e, he, hek⟩ := List.mem_map.mp hk
    exact hek ▸ hidx e he
  have hmd : mergeData (ingestData files) = (files.filterMap parsedEntryOf).foldl mergeStep [] := by
    rw [hing]
    exact mergeData_eq_entries_fold _ hkeysidx hnd
  have hget : jsObjGet (mergeData (ingestData files)) q =
      specLastEntry (files.filterMap parsedEntryOf) q := by
    rw [hmd, jsObjGet_mergeEntries q _ []]
    cases hE : specLastEntry (files.filterMap parsedEntryOf) q with
    | none => rfl
    | some v => rfl
  have hone : jsObjGet (mergeData (ingestData files)) q = specLastValue files q := by
    rw [hget, specLastValue_eq q files]
  refine ⟨hone, ?_⟩
  have hiff1 : q ∈ keysOf (mergeData (ingestData files)) ↔
      jsObjGet (mergeData (ingestData files)) q ≠ none := by
    constructor
    · intro hm hc
      exact (jsObjGet_eq_none_iff _ _).mp hc hm
    · intro hne
      by_contra hm
      exact hne ((jsObjGet_eq_none_iff _ _).mpr hm)
  rw [hiff1, hone, specLastValue_eq q files, specKeyUnion_eq files]
  exact specLastEntry_ne_none_iff q _

theorem c2_merge_invariant_witness :
    jsObjGet (mergeData (ingestData
        [⟨"/r/src/lang/en.json", false, false, Contents.json [("a", "1")]⟩,
          ⟨"/r/src/core/settings/lang/en.json", false, false, Contents.json [("a", "2")]⟩]))
      "core.settings.a" =
      specLastValue
        [⟨"/r/src/lang/en.json", false, false, Contents.json [("a", "1")]⟩,
          ⟨"/r/src/core/settings/lang/en.json", false, false, Contents.json [("a", "2")]⟩]
        "core.settings.a" ∧
    ("core.settings.a" ∈ keysOf (mergeData (ingestData
        [⟨"/r/src/lang/en.json", false, false, Contents.json [("a", "1")]⟩,
          ⟨"/r/src/core/settings/lang/en.json", false, false, Contents.json [("a", "2")]⟩])) ↔
      "core.settings.a" ∈ specKeyUnion
        [⟨"/r/src/lang/en.json", false, false, Contents.json [("a", "1")]⟩,
          ⟨"/r/src/core/settings/lang/en.json", false, false, Contents.json [("a", "2")]⟩]) :=
  c2_merge_invariant
    [⟨"/r/src/lang/en.json", false, false, Contents.json [("a", "1")]⟩,
      ⟨"/r/src/core/settings/lang/en.json", false, false, Contents.json [("a", "2")]⟩]
    "core.settings.a" (by decide) (by decide)

/-- C3 counterexample: with keys from the supplementary plane, the
default JS sort orders by UTF-16 code units, not codepoints — the key
containing U+10000 (surrogate pair D800 DC00) sorts before the key
containing U+FFFF, so the output keys are not in ascending
codepoint/byte order. -/
theorem c3_counterexample :
    keysOf (orderData [("lang/en.json",
        [(String.mk [Char.ofNat 65535], "v1"), (String.mk [Char.ofNat 65536], "v2")])]) =
      ["core." ++ String.mk [Char.ofNat 65536], "core." ++ String.mk [Char.ofNat 65535]] ∧
    ("core." ++ String.mk [Char.ofNat 65535]).data <
      ("core." ++ String.mk [Char.ofNat 65536]).data := by
  decide

/-- C3 amended: the finalised object has exactly the entries of the
merged table, with keys in strictly ascending UTF-16 code-unit
lexicographic order (which agrees with codepoint order whenever no key
contains a supplementary-plane character), regardless of ingestion
order. -/
theorem c3_sorted_output (data : Data) :
    List.Pairwise Utf16Lt (keysOf (orderData data)) ∧
    ∀ q : String, jsObjGet (orderData data) q = jsObjGet (mergeData data) q := by
  constructor
  · rw [orderData_keys]
    exact (List.Pairwise.and (jsSortStrings_sorted _) (sortedKeys_nodup data)).imp
      (fun hab => utf16Lt_of_le_ne hab.1 hab.2)
  · exact orderData_get data

/-- C7 counterexample: the serialised output is not newline-terminated —
`JSON.stringify` produces no trailing newline and `bufferFrom` adds
none. -/
theorem c7_counterexample :
    treatMergedData [("lang/en.json", [("a", "b")])] = "\x7b\n    \"core.a\": \"b\"\n\x7d" ∧
    lastChar (treatMergedData [("lang/en.json", [("a", "b")])]) ≠ some '\n' := by decide

/-- C7 amended: the serialised output is the 4-space-indented
pretty-printed JSON text of the key-sorted object (UTF-8 encoded by the
buffer constructor), with no trailing newline — its final character is
the closing brace. -/
theorem c7_serialization (data : Data) :
    treatMergedData data = specPretty (orderData data) ∧
    lastChar (treatMergedData data) = some '\x7d' ∧
    lastChar (treatMergedData data) ≠ some '\n' := by
  have hdot : ∀ k ∈ keysOf (orderData data), '.' ∈ k.data := by
    intro k hk
    rw [orderData_keys] at hk
    exact dot_mem_mergeData data k ((sortedKeys_perm data).mem_iff.mp hk)
  have hnd : (keysOf (orderData data)).Nodup := by
    rw [orderData_keys]
    exact sortedKeys_nodup data
  have h1 : jsForInKeys (orderData data) = keysOf (orderData data) :=
    jsForInKeys_eq_keys _ (fun k hk => dot_not_idx (hdot k hk))
  refine ⟨jsonStringify4_eq_specPretty _ h1 hnd, lastChar_jsonStringify4 _, ?_⟩
  intro hc
  have h2 : (some '\x7d' : Option Char) = some '\n' :=
    (lastChar_jsonStringify4 (orderData data)).symm.trans hc
  exact absurd h2 (by decide)

/-- C4 counterexample: for `addon/foo/en.json` the final remaining
segment `foo` is not `lang`, yet it is dropped all the same, so the
prefix is `addon.` rather than the claimed `addon.foo`. -/
theorem c4_counterexample :
    prefixFor "addon/foo/en.json" = some "addon." ∧
    prefixFor "addon/foo/en.json" ≠ some "addon.foo" := by decide

/-- C4 amended: for root `addon` the final remaining segment is dropped
unconditionally, whether or not it equals `lang`; in particular
`addon/foo/en.json` yields prefix `addon.`. -/
theorem c4_addon_final_segment :
    (∀ (mid : List String) (lastSeg : String),
        prefixFromSegs ("addon" :: mid ++ [lastSeg]) =
          some ("addon." ++ "_".intercalate mid)) ∧
    prefixFor "addon/foo/en.json" = some "addon." := by
  constructor
  · intro mid lastSeg
    have h1 : prefixFromSegs ("addon" :: mid ++ [lastSeg]) =
        some ("addon." ++ "_".intercalate ((("addon" :: mid ++ [lastSeg]).dropLast).drop 1)) := rfl
    rw [h1]
    have h2 : ("addon" :: mid ++ [lastSeg]).dropLast = "addon" :: mid := by
      show (("addon" :: mid) ++ [lastSeg]).dropLast = "addon" :: mid
      exact List.dropLast_concat
    rw [h2]
    rfl
  · decide

/-- C6 counterexample: the parse-failure diagnostic contains the
underlying error message but not the fragment's path. -/
theorem c6_counterexample :
    treatFile
        ⟨"/a/src/lang/en.json", false, false,
          Contents.malformed "SyntaxError: Unexpected token u in JSON at position 0"⟩ [] =
      ([], some "Error parsing JSON: SyntaxError: Unexpected token u in JSON at position 0") ∧
    containsSub
        ("Error parsing JSON: SyntaxError: Unexpected token u in JSON at position 0").data
        ("/a/src/lang/en.json").data = false := by decide

/-- C6 amended: for a fragment whose content fails to parse, ingestion
reports a diagnostic containing the parse error message (but not the
fragment's path), excludes the fragment, does not abort, and leaves the
previously accumulated data unchanged. -/
theorem c6_parse_error_handling (file : VFile) (data : Data) (err : String)
    (h1 : file.isNull = false) (h2 : file.isStream = false)
    (h3 : file.contents = Contents.malformed err) :
    treatFile file data = (data, some ("Error parsing JSON: " ++ err)) ∧
    err.data <:+ ("Error parsing JSON: " ++ err).data := by
  constructor
  · unfold treatFile
    rw [h1, h2, h3]
    rfl
  · have hd : ("Error parsing JSON: " ++ err).data =
        ("Error parsing JSON: ").data ++ err.data := rfl
    rw [hd]
    exact List.suffix_append _ _

theorem c6_parse_error_handling_witness :
    treatFile ⟨"/a/src/lang/en.json", false, false,
        Contents.malformed "SyntaxError: Unexpected token"⟩ [] =
      ([], some ("Error parsing JSON: " ++ "SyntaxError: Unexpected token")) ∧
    ("SyntaxError: Unexpected token").data <:+
      ("Error parsing JSON: " ++ "SyntaxError: Unexpected token").data :=
  c6_parse_error_handling _ [] _ rfl rfl rfl

/-- C9 counterexample: a base directory already ending in two
separators is left as is — the source only appends a `/` when the last
character is not `/`, it never collapses repeated separators to exactly
one. -/
theorem c9_counterexample :
    resolvePaths "en" ["foo//"] = ["foo//en.json"] ∧
    specResolve "en" ["foo//"] = ["foo/en.json"] ∧
    resolvePaths "en" ["foo//"] ≠ specResolve "en" ["foo//"] := by decide

/-- C9 amended: one candidate path per base directory, in input order
and without deduplication, each formed by appending `/` exactly when the
directory's last character is not already `/` (no collapsing of repeated
separators), followed by `language + ".json"`. -/
theorem c9_path_resolution (language : String) (dirs : List String) :
    (resolvePaths language dirs).length = dirs.length ∧
    ∀ i, (h : i < dirs.length) →
      (resolvePaths language dirs)[i]? =
        some ((if endsWithSlash dirs[i] = true then dirs[i] else dirs[i] ++ "/") ++
          language ++ ".json") := by
  constructor
  · simp [resolvePaths]
  · intro i h
    unfold resolvePaths
    rw [List.getElem?_map, List.getElem?_eq_getElem h]
    have hmain : (if jsSliceLast dirs[i] ≠ "/" then dirs[i] ++ "/" else dirs[i]) =
        (if endsWithSlash dirs[i] = true then dirs[i] else dirs[i] ++ "/") := by
      by_cases he : endsWithSlash dirs[i] = true
      · rw [if_pos he, if_neg]
        intro hne
        rw [(jsSliceLast_ne_slash_iff _).mp hne] at he
        exact Bool.false_ne_true he
      · have he2 : endsWithSlash dirs[i] = false := by simpa using he
        rw [if_neg he, if_pos ((jsSliceLast_ne_slash_iff _).mpr he2)]
    show some ((if jsSliceLast dirs[i] ≠ "/" then dirs[i] ++ "/" else dirs[i]) ++
      language ++ ".json") = _
    rw [hmain]

theorem c9_path_resolution_witness :
    (resolvePaths "en" ["base", "base2/"]).length = 2 ∧
    (resolvePaths "en" ["base", "base2/"])[1]? =
      some ((if endsWithSlash "base2/" = true then "base2/" else "base2/" ++ "/") ++
        "en" ++ ".json") := by
  refine ⟨(c9_path_resolution "en" ["base", "base2/"]).1, ?_⟩
  exact (c9_path_resolution "en" ["base", "base2/"]).2 1 (by decide)

/-- C10: the accumulated data is keyed by relative path, so a later
successfully parsed fragment with the same relative path entirely
replaces an earlier one — ingesting both is the same as ingesting only
the later one, and a key only the earlier fragment supplied is absent
from the merged table. -/
theorem c10_replacement :
    (∀ (d : Data) (f1 f2 : VFile) (frag1 frag2 : Frag),
        relPath f1.path = relPath f2.path →
        parsedFragOf f1 = some frag1 → parsedFragOf f2 = some frag2 →
        (treatFile f2 (treatFile f1 d).1).1 = (treatFile f2 d).1) ∧
    (∀ (f1 f2 : VFile) (frag1 frag2 : Frag) (k pre : String),
        relPath f1.path = relPath f2.path →
        parsedFragOf f1 = some frag1 → parsedFragOf f2 = some frag2 →
        k ∈ keysOf frag1 → k ∉ keysOf frag2 →
        prefixFor (relPath f2.path) = some pre →
        jsObjGet (mergeData ((treatFile f2 ((treatFile f1 []).1)).1)) (pre ++ "." ++ k) =
          none) := by
  have habs : ∀ (d : Data) (f1 f2 : VFile) (frag1 frag2 : Frag),
      relPath f1.path = relPath f2.path →
      parsedFragOf f1 = some frag1 → parsedFragOf f2 = some frag2 →
      (treatFile f2 (treatFile f1 d).1).1 = (treatFile f2 d).1 := by
    intro d f1 f2 frag1 frag2 hrel h1 h2
    rw [treatFile_of_parsed h1, treatFile_of_parsed h2 d,
      treatFile_of_parsed h2 (jsObjSet d (relPath f1.path) frag1)]
    show jsObjSet (jsObjSet d (relPath f1.path) frag1) (relPath f2.path) frag2 =
      jsObjSet d (relPath f2.path) frag2
    rw [hrel, jsObjSet_set_absorb]
  refine ⟨habs, ?_⟩
  intro f1 f2 frag1 frag2 k pre hrel h1 h2 hk1 hk2 hpre
  rw [habs [] f1 f2 frag1 frag2 hrel h1 h2, treatFile_of_parsed h2]
  show jsObjGet (mergeData (jsObjSet [] (relPath f2.path) frag2)) (pre ++ "." ++ k) = none
  have hset : jsObjSet ([] : Data) (relPath f2.path) frag2 = [(relPath f2.path, frag2)] := rfl
  rw [hset, mergeData_singleton, hpre]
  show jsObjGet (addProperties [] frag2 (pre ++ ".")) ((pre ++ ".") ++ k) = none
  rw [jsObjGet_addProperties]
  have hfil : frag2.filter (fun kv => (pre ++ ".") ++ kv.1 == (pre ++ ".") ++ k) = [] := by
    rw [List.filter_eq_nil_iff]
    intro kv hkv hp
    have heq : (pre ++ ".") ++ kv.1 = (pre ++ ".") ++ k := by
      simpa using hp
    have hk : kv.1 = k := string_append_left_cancel heq
    exact hk2 (hk ▸ List.mem_map_of_mem (fun e => e.1) hkv)
  rw [hfil]
  rfl

theorem c10_replacement_witness :
    (treatFile ⟨"/b/src/lang/en.json", false, false, Contents.json [("b", "3")]⟩
        (treatFile ⟨"/a/src/lang/en.json", false, false,
          Contents.json [("a", "1"), ("b", "2")]⟩ []).1).1 =
      (treatFile ⟨"/b/src/lang/en.json", false, false, Contents.json [("b", "3")]⟩ []).1 ∧
    jsObjGet
        (mergeData ((treatFile ⟨"/b/src/lang/en.json", false, false, Contents.json [("b", "3")]⟩
          ((treatFile ⟨"/a/src/lang/en.json", false, false,
            Contents.json [("a", "1"), ("b", "2")]⟩ []).1)).1))
        ("core" ++ "." ++ "a") = none :=
  ⟨c10_replacement.1 [] _ _ [("a", "1"), ("b", "2")] [("b", "3")] (by decide) (by decide)
      (by decide),
    c10_replacement.2 _ _ [("a", "1"), ("b", "2")] [("b", "3")] "a" "core" (by decide)
      (by decide) (by decide) (by decide) (by decide) (by decide)⟩

end BuildLang
